import Mathlib

/-!
Verification development for the TAP-Net model core (`tapnet_model.py`).

The numeric pipeline is embedded shallowly over the exact rationals `ℚ`:
array tensors become functions from natural-number indices to `ℚ`, with
the relevant dimensions carried alongside.  The two operations whose exact
real semantics is irrational (`jnp.sqrt` and the `exp` inside
`jax.nn.softmax`) are abstracted as function parameters `sqrtQ`/`expQ`;
every theorem below either holds for all instantiations of those
parameters or is stated about the (rational) radicand that feeds them.
A separate `ℝ`-valued embedding of the feature-normalization lines is used
for the unit-norm statement.
-/

namespace TapNet

/-! ## Bilinear interpolation (`interp`, lines 30-46)

`interp` delegates to `jax.scipy.ndimage.map_coordinates(x, coords,
order=1, mode='nearest')`: separable linear interpolation where the two
neighbouring sample indices on each axis (`⌊c⌋` and `⌊c⌋ + 1`) are clamped
into the valid index range (the `'nearest'` boundary mode). -/

/-- Clamp an integer index into `[0, n-1]` (the `mode='nearest'` index
handling of `map_coordinates`; negative values clamp to `0` via `toNat`). -/
def clampI (n : ℕ) (i : ℤ) : ℕ := (min i ((n : ℤ) - 1)).toNat

/-- One axis of order-1 `map_coordinates`: linear interpolation between the
values at the clamped indices `⌊c⌋` and `⌊c⌋ + 1` with weights `1 - frac`
and `frac`. -/
def axisVal (n : ℕ) (c : ℚ) (g : ℕ → ℚ) : ℚ :=
  (1 - (c - (⌊c⌋ : ℚ))) * g (clampI n ⌊c⌋) + (c - (⌊c⌋ : ℚ)) * g (clampI n (⌊c⌋ + 1))

/-- `interp` (lines 30-46) on a 2-D field, as described by its docstring:
bilinear interpolation of `x : [height, width]` at a point `(y, x)` given
in pixel coordinates, with `'nearest'` (edge-clamping) boundary handling. -/
def interp (H W : ℕ) (x : ℕ → ℕ → ℚ) (y xc : ℚ) : ℚ :=
  axisVal H y (fun r => axisVal W xc (x r))

/-- The forward pass (line 345) applies `interp` to a rank-3 slab
`feature_grid[b, :, :, :, c]` with a rank-3 coordinate `(t, y, x)`;
`map_coordinates` is rank generic, so this is trilinear interpolation. -/
def interp3 (T H W : ℕ) (v : ℕ → ℕ → ℕ → ℚ) (p : ℚ × ℚ × ℚ) : ℚ :=
  axisVal T p.1 (fun t => axisVal H p.2.1 (fun h => axisVal W p.2.2 (v t h)))

/-- Clamp a rational coordinate into the valid range `[0, n-1]`. -/
def clampQ (n : ℕ) (v : ℚ) : ℚ := max 0 (min v ((n : ℚ) - 1))

/-! ## Soft argmax (`soft_argmax_heatmap`, lines 49-86) -/

/-- Sum of `f r c` over the `H × W` grid (the `jnp.sum(..., axis=(0,1))`
reductions of `soft_argmax_heatmap`). -/
def gridSum (H W : ℕ) (f : ℕ → ℕ → ℚ) : ℚ :=
  ∑ r ∈ Finset.range H, ∑ c ∈ Finset.range W, f r c

/-- `jnp.argmax(jnp.reshape(softmax_val, -1))` (line 69): the flat
(row-major) index of the first occurrence of the maximum value.  `jnp`
keeps the first index on ties, which the strict comparison reproduces. -/
def argmaxFlat (H W : ℕ) (sv : ℕ → ℕ → ℚ) : ℕ :=
  (List.range (H * W)).foldl
    (fun best k => if sv (best / W) (best % W) < sv (k / W) (k % W) then k else best) 0

/-- The `valid` indicator of lines 71-76: `1` when the squared Euclidean
distance from grid cell `(r, c)` (coordinates `(x, y) = (c, r)`) to the
argmax seed `(px, py)` is strictly below `threshold²`, else `0`. -/
def validCell (px py th : ℚ) (r c : ℕ) : ℚ :=
  if ((c : ℚ) - px) ^ 2 + ((r : ℚ) - py) ^ 2 < th ^ 2 then 1 else 0

/-- `sum_of_weights` (lines 81-85): the sum of heatmap values over valid
cells, clamped below by `1e-12`. -/
def sumOfWeights (H W : ℕ) (sv : ℕ → ℕ → ℚ) (th : ℚ) : ℚ :=
  max
    (gridSum H W (fun r c =>
      validCell ((argmaxFlat H W sv % W : ℕ) : ℚ) ((argmaxFlat H W sv / W : ℕ) : ℚ) th r c *
        sv r c))
    1e-12

/-- `soft_argmax_heatmap` (lines 49-86): weighted average `(x, y)` grid
coordinate over the cells within `threshold` of the hard argmax, weights
given by the heatmap, denominator clamped below by `1e-12`. -/
def soft_argmax_heatmap (H W : ℕ) (sv : ℕ → ℕ → ℚ) (th : ℚ) : ℚ × ℚ :=
  (gridSum H W (fun r c =>
      (c : ℚ) * validCell ((argmaxFlat H W sv % W : ℕ) : ℚ) ((argmaxFlat H W sv / W : ℕ) : ℚ) th r c *
        sv r c) / sumOfWeights H W sv th,
   gridSum H W (fun r c =>
      (r : ℚ) * validCell ((argmaxFlat H W sv % W : ℕ) : ℚ) ((argmaxFlat H W sv / W : ℕ) : ℚ) th r c *
        sv r c) / sumOfWeights H W sv th)

/-- The spec's description of the soft argmax, written with an explicit
filtered set of valid cells: seed the hard argmax cell, keep the cells of
the grid whose squared Euclidean distance to the seed is within the pixel
radius, and average their `(x, y)` coordinates weighted by the heatmap,
with the denominator floored at `1e-12`. -/
def softArgmaxSpec (H W : ℕ) (sv : ℕ → ℕ → ℚ) (th : ℚ) : ℚ × ℚ :=
  ((∑ rc ∈ (Finset.range H ×ˢ Finset.range W).filter
        (fun rc => ((rc.1 : ℚ) - ((argmaxFlat H W sv / W : ℕ) : ℚ)) ^ 2 +
          ((rc.2 : ℚ) - ((argmaxFlat H W sv % W : ℕ) : ℚ)) ^ 2 < th ^ 2),
      (rc.2 : ℚ) * sv rc.1 rc.2) /
     max (∑ rc ∈ (Finset.range H ×ˢ Finset.range W).filter
        (fun rc => ((rc.1 : ℚ) - ((argmaxFlat H W sv / W : ℕ) : ℚ)) ^ 2 +
          ((rc.2 : ℚ) - ((argmaxFlat H W sv % W : ℕ) : ℚ)) ^ 2 < th ^ 2), sv rc.1 rc.2) 1e-12,
   (∑ rc ∈ (Finset.range H ×ˢ Finset.range W).filter
        (fun rc => ((rc.1 : ℚ) - ((argmaxFlat H W sv / W : ℕ) : ℚ)) ^ 2 +
          ((rc.2 : ℚ) - ((argmaxFlat H W sv % W : ℕ) : ℚ)) ^ 2 < th ^ 2),
      (rc.1 : ℚ) * sv rc.1 rc.2) /
     max (∑ rc ∈ (Finset.range H ×ˢ Finset.range W).filter
        (fun rc => ((rc.1 : ℚ) - ((argmaxFlat H W sv / W : ℕ) : ℚ)) ^ 2 +
          ((rc.2 : ℚ) - ((argmaxFlat H W sv % W : ℕ) : ℚ)) ^ 2 < th ^ 2), sv rc.1 rc.2) 1e-12)

/-! ## Heatmaps to points (`heatmaps_to_points`, lines 89-153) -/

/-- Modelled from the spec: `tapnet.utils.transforms.convert_grid_coordinates`
is outside this repository; the spec describes it as a "pure linear rescale
per axis" (`convert(coords, from_shape, to_shape, layout)`), i.e. each
coordinate is multiplied by `to_size / from_size` of its axis. -/
def convertCoord (fromN toN : ℕ) (v : ℚ) : ℚ := v * (toN : ℚ) / (fromN : ℚ)

/-- Modelled from the spec: the `'tyx'` layout of the coordinate-transform
utility, rescaling the `(t, y, x)` components by their respective axis
ratios. -/
def convertTYX (fT fH fW tT tH tW : ℕ) (p : ℚ × ℚ × ℚ) : ℚ × ℚ × ℚ :=
  (convertCoord fT tT p.1, convertCoord fH tH p.2.1, convertCoord fW tW p.2.2)

/-- `jnp.round`: round half to even (IEEE bankers' rounding), as used on
the converted query frame in line 145. -/
def jround (q : ℚ) : ℤ :=
  if q - (⌊q⌋ : ℚ) < 1 / 2 then ⌊q⌋
  else if 1 / 2 < q - (⌊q⌋ : ℚ) then ⌊q⌋ + 1
  else if Even ⌊q⌋ then ⌊q⌋ else ⌊q⌋ + 1

/-- The per-`(batch, query)` slice of `heatmaps_to_points` (lines 119-153):
soft-argmax each frame's heatmap, rescale from feature-grid to image
coordinates, and, when a query point is supplied, blend in the query's raw
`(x, y)` on the frame(s) whose index equals the rounded converted query
frame — a mask blend `out * (1 - m) + query_xy * m`, not an index
overwrite.  `imT`/`imH`/`imW` are `image_shape[1:4]`; line 135 asserts
`imT` equals the heatmap frame count `T`, and the arange of line 146 runs
over `image_shape[1]` frames. -/
def htpPoint (T H W imT imH imW : ℕ) (heat : ℕ → ℕ → ℕ → ℚ) (th : ℚ)
    (q : Option (ℚ × ℚ × ℚ)) (t : ℕ) : ℚ × ℚ :=
  match q with
  | none =>
      (convertCoord W imW (soft_argmax_heatmap H W (heat t) th).1,
       convertCoord H imH (soft_argmax_heatmap H W (heat t) th).2)
  | some qp =>
      (convertCoord W imW (soft_argmax_heatmap H W (heat t) th).1 *
          (1 - (if jround (convertCoord imT T qp.1) = (t : ℤ) then (1 : ℚ) else 0)) +
        qp.2.2 * (if jround (convertCoord imT T qp.1) = (t : ℤ) then (1 : ℚ) else 0),
       convertCoord H imH (soft_argmax_heatmap H W (heat t) th).2 *
          (1 - (if jround (convertCoord imT T qp.1) = (t : ℤ) then (1 : ℚ) else 0)) +
        qp.2.1 * (if jround (convertCoord imT T qp.1) = (t : ℤ) then (1 : ℚ) else 0))

/-- `heatmaps_to_points` (lines 89-153).  The heatmap stack has shape
`[batch, num_points, time, height, width]`; `soft_argmax_heatmap` is
vmapped over the first three axes, so the result at `(b, n, t)` only
depends on the slab `heat b n` and the query `query b n`. -/
def heatmaps_to_points (T H W imT imH imW : ℕ)
    (heat : ℕ → ℕ → ℕ → ℕ → ℕ → ℚ) (th : ℚ)
    (query : Option (ℕ → ℕ → ℚ × ℚ × ℚ)) : ℕ → ℕ → ℕ → ℚ × ℚ :=
  fun b n t =>
    htpPoint T H W imT imH imW (fun t' h w => heat b n t' h w) th
      (query.map (fun f => f b n)) t

/-! ## Cost-volume correlator (`tracks_from_cost_volume`, lines 216-274)

The three `hk.Conv3D` layers all use kernel shape `[1, 3, 3]` over the
`(merged-query, height, width)` axes with `SAME` padding; the leading time
axis is the convolution's batch axis. -/

/-- Output spatial size of a `SAME`-padded convolution: `⌈n / s⌉`. -/
def outSame (n s : ℕ) : ℕ := (n + s - 1) / s

/-- Leading padding of `SAME` convolution for axis size `n`, stride `s`,
kernel size `k`: `max ((outSame n s - 1) * s + k - n) 0 / 2`. -/
def padBegin (n s k : ℕ) : ℤ :=
  max (((outSame n s : ℤ) - 1) * s + k - n) 0 / 2

/-- Zero-padded read of a `[time, D, H, W, C]` tensor at possibly
out-of-range integer indices (the zero padding of `SAME` convolution). -/
def getPad3 (D H W : ℕ) (v : ℕ → ℕ → ℕ → ℕ → ℕ → ℚ) (t : ℕ) (j h w : ℤ) (c : ℕ) : ℚ :=
  if 0 ≤ j ∧ j < (D : ℤ) ∧ 0 ≤ h ∧ h < (H : ℤ) ∧ 0 ≤ w ∧ w < (W : ℤ) then
    v t j.toNat h.toNat w.toNat c
  else 0

/-- `hk.Conv3D` with kernel `(kd, kh, kw)`, strides `(sd, sh, sw)` and
`SAME` zero padding, applied to a `[time, D, H, W, cin]` tensor (`time` is
the batch axis, as in lines 249-259 where the cost volume is laid out
time-first). -/
def conv3d (kd kh kw cin : ℕ) (K : ℕ → ℕ → ℕ → ℕ → ℕ → ℚ) (bz : ℕ → ℚ)
    (sd sh sw : ℕ) (D H W : ℕ) (v : ℕ → ℕ → ℕ → ℕ → ℕ → ℚ) :
    ℕ → ℕ → ℕ → ℕ → ℕ → ℚ :=
  fun t j h w o =>
    bz o + ∑ dd ∈ Finset.range kd, ∑ dh ∈ Finset.range kh, ∑ dw ∈ Finset.range kw,
      ∑ c ∈ Finset.range cin,
        K dd dh dw c o *
          getPad3 D H W v t ((j * sd + dd : ℤ) - padBegin D sd kd)
            ((h * sh + dh : ℤ) - padBegin H sh kh)
            ((w * sw + dw : ℤ) - padBegin W sw kw) c

/-- `jax.nn.relu`. -/
def relu (x : ℚ) : ℚ := max x 0

/-- Denominator of `jax.nn.softmax(pos, axis=(-2, -3))` (line 265): the sum
of exponentials over the joint spatial axes.  (`jax` subtracts the spatial
maximum before exponentiating for stability; in exact arithmetic that
cancels, so the plain form is used with the abstract `expQ`.) -/
def softmaxDen (expQ : ℚ → ℚ) (H W : ℕ) (f : ℕ → ℕ → ℚ) : ℚ :=
  ∑ h ∈ Finset.range H, ∑ w ∈ Finset.range W, expQ (f h w)

/-- Radicand of the occlusion root-mean-square (line 269):
`jnp.mean(jnp.square(occlusion), axis=(-2, -3)) + 1e-8` over the
post-stride-2 spatial grid `H2 × W2`. -/
def occRadicand (H2 W2 : ℕ) (f : ℕ → ℕ → ℚ) : ℚ :=
  (∑ h ∈ Finset.range H2, ∑ w ∈ Finset.range W2, f h w ^ 2) / ((H2 * W2 : ℕ) : ℚ) + 1e-8

/-- Parameters of the four `cost_volume_track_mods` layers (lines 190-214):
`hid1 : Conv3D(16, [1,3,3])`, `hid2 : Conv3D(1, [1,3,3])`,
`hid3 : Conv3D(32, [1,3,3], stride [1,2,2])`, `occ_out : Linear(1)`. -/
structure CVParams where
  K1 : ℕ → ℕ → ℕ → ℕ → ℕ → ℚ
  b1 : ℕ → ℚ
  K2 : ℕ → ℕ → ℕ → ℕ → ℕ → ℚ
  b2 : ℕ → ℚ
  K3 : ℕ → ℕ → ℕ → ℕ → ℕ → ℚ
  b3 : ℕ → ℚ
  wOcc : ℕ → ℚ
  bOcc : ℚ

/-- The cost volume (lines 250-259): `einsum('bncd,bthwcd->tbnhwd')`
contracted over the per-head channels, followed by the reshape that merges
`(b, n)` into one axis of size `B * Nq` (row-major, so merged index
`j = b * Nq + n`). -/
def cvOf (Cc Nq : ℕ) (interpH : ℕ → ℕ → ℕ → ℕ → ℚ)
    (fgh : ℕ → ℕ → ℕ → ℕ → ℕ → ℕ → ℚ) : ℕ → ℕ → ℕ → ℕ → ℕ → ℚ :=
  fun t j h w d =>
    ∑ c ∈ Finset.range Cc, interpH (j / Nq) (j % Nq) c d * fgh (j / Nq) t h w c d

/-- `occlusion = relu(hid1(cost_volume))` (lines 261-262). -/
def occ1Of (p : CVParams) (D H W : ℕ) (cv : ℕ → ℕ → ℕ → ℕ → ℕ → ℚ) :
    ℕ → ℕ → ℕ → ℕ → ℕ → ℚ :=
  fun t j h w o => relu (conv3d 1 3 3 4 p.K1 p.b1 1 1 1 D H W cv t j h w o)

/-- `pos = hid2(occlusion)` (line 264). -/
def posOf (p : CVParams) (D H W : ℕ) (occ1 : ℕ → ℕ → ℕ → ℕ → ℕ → ℚ) :
    ℕ → ℕ → ℕ → ℕ → ℕ → ℚ :=
  conv3d 1 3 3 16 p.K2 p.b2 1 1 1 D H W occ1

/-- `jax.nn.softmax(pos, axis=(-2, -3))` (line 265), per `(t, j)` slab. -/
def softOf (expQ : ℚ → ℚ) (H W : ℕ) (pos : ℕ → ℕ → ℕ → ℕ → ℕ → ℚ) :
    ℕ → ℕ → ℕ → ℕ → ℚ :=
  fun t j h w => expQ (pos t j h w 0) / softmaxDen expQ H W (fun h' w' => pos t j h' w' 0)

/-- `occlusion = hid3(occlusion)` (line 268): stride `[1, 2, 2]`. -/
def occ3Of (p : CVParams) (D H W : ℕ) (occ1 : ℕ → ℕ → ℕ → ℕ → ℕ → ℚ) :
    ℕ → ℕ → ℕ → ℕ → ℕ → ℚ :=
  conv3d 1 3 3 16 p.K3 p.b3 1 2 2 D H W occ1

/-- The occlusion head tail (lines 269-270): root-mean-square over the
spatial axes (with the `1e-8` floor inside the square root) followed by the
`occ_out` linear layer to a single logit. -/
def occOutOf (p : CVParams) (sqrtQ : ℚ → ℚ) (H W : ℕ)
    (occ3 : ℕ → ℕ → ℕ → ℕ → ℕ → ℚ) : ℕ → ℕ → ℚ :=
  fun t j =>
    p.bOcc + ∑ o ∈ Finset.range 32,
      p.wOcc o * sqrtQ (occRadicand (outSame H 2) (outSame W 2) (fun h w => occ3 t j h w o))

/-- `TAPNet.tracks_from_cost_volume` (lines 216-274).  `B, Nq` are the
batch and query counts of the (possibly chunked) inputs, `T, H, W` the
feature-grid frame count and spatial size, `Cc` the per-head channel
count, `imT, imH, imW` the image shape entries `im_shp[1:4]`.  Returns the
predicted points `(b, n, t) ↦ (x, y)` and the occlusion logits
`(b, n, t) ↦ ℚ` (the transpose/reshape of lines 271-273). -/
def tracks_from_cost_volume (p : CVParams) (expQ sqrtQ : ℚ → ℚ)
    (B Nq T H W Cc imT imH imW : ℕ)
    (interpH : ℕ → ℕ → ℕ → ℕ → ℚ) (fgh : ℕ → ℕ → ℕ → ℕ → ℕ → ℕ → ℚ)
    (query : ℕ → ℕ → ℚ × ℚ × ℚ) :
    (ℕ → ℕ → ℕ → ℚ × ℚ) × (ℕ → ℕ → ℕ → ℚ) :=
  (heatmaps_to_points T H W imT imH imW
      (fun b n t h w =>
        softOf expQ H W
          (posOf p (B * Nq) H W (occ1Of p (B * Nq) H W (cvOf Cc Nq interpH fgh)))
          t (b * Nq + n) h w)
      5 (some query),
   fun b n t =>
    occOutOf p sqrtQ H W
      (occ3Of p (B * Nq) H W (occ1Of p (B * Nq) H W (cvOf Cc Nq interpH fgh)))
      t (b * Nq + n))

/-! ## Forward pass (`TAPNet.__call__`, lines 276-386) -/

/-- A feature grid `[batch, time, height, width, channels]`. -/
structure FeatureGrid where
  B : ℕ
  T : ℕ
  H : ℕ
  W : ℕ
  C : ℕ
  val : ℕ → ℕ → ℕ → ℕ → ℕ → ℚ

/-- Query points `[batch, num_points, 3]`, each entry `(t, y, x)`. -/
structure QueryPoints where
  N : ℕ
  val : ℕ → ℕ → ℚ × ℚ × ℚ

/-- The output dict of the forward pass: `feature_grid` always,
`query_feats` iff `get_query_feats`, `occlusion`/`tracks` iff
`compute_regression`. -/
structure FwdOut where
  feature_grid : FeatureGrid
  query_feats : Option (ℕ → ℕ → ℕ → ℚ)
  occlusion : Option (ℕ → ℕ → ℕ → ℚ)
  tracks : Option (ℕ → ℕ → ℕ → ℚ × ℚ)

/-- Failure modes of the forward pass: using `query_points=None` at the
coordinate conversion of line 339 (a `TypeError` in Python), the
`assert query_chunk_size is not None` of line 363 (an `AssertionError`),
and `range(0, N, 0)` with a zero chunk size (a `ValueError`). -/
inductive FwdErr where
  | missingQueryPoints
  | chunkUnset
  | chunkZero
deriving DecidableEq

/-- Execution-order instrumentation of the forward pass: one event per
major stage, in source order (backbone line 319, coordinate conversion
line 339, feature sampling line 345, one correlator invocation per chunk
in the loop of lines 372-377). -/
inductive Step where
  | backbone
  | coordConvert
  | sample
  | correlator (i : ℕ)
deriving DecidableEq

/-- Radicand/argument of the feature-normalization denominator (lines
327-331): the squared channel norm floored at `1e-12`. -/
def normRadicand (C : ℕ) (v : ℕ → ℚ) : ℚ :=
  max (∑ c ∈ Finset.range C, v c ^ 2) 1e-12

/-- The normalization of lines 327-331:
`latent / sqrt(max(sum(square(latent), axis=-1), 1e-12))`. -/
def normFG (sqrtQ : ℚ → ℚ) (g : FeatureGrid) : FeatureGrid :=
  { g with val := fun b t h w c =>
      g.val b t h w c / sqrtQ (normRadicand g.C (fun c' => g.val b t h w c')) }

/-- The feature grid the forward pass operates on (lines 318-331): the
externally supplied grid verbatim when given, otherwise the normalized
backbone output.  `latent` stands for the TSM-ResNet output on this video
(the backbone is an external capability). -/
def usedFG (sqrtQ : ℚ → ℚ) (latent : FeatureGrid) (fgo : Option FeatureGrid) :
    FeatureGrid :=
  match fgo with
  | some g => g
  | none => normFG sqrtQ latent

/-- Trace prefix of the feature-grid stage: the backbone runs only when no
grid is supplied. -/
def tr0Of (fgo : Option FeatureGrid) : List Step :=
  match fgo with
  | some _ => []
  | none => [Step.backbone]

/-- The shape fixup of lines 333-335: a 4-D video with `num_frames` given
is reinterpreted as `(B // num_frames, num_frames, ...)`. -/
def adjShape (vs : List ℕ) (nf : Option ℕ) : List ℕ :=
  match nf with
  | some k => if vs.length < 5 then (vs.headD 0 / k) :: k :: vs.tail else vs
  | none => vs

/-- Number of chunks of `range(0, N, k)` for `k > 0`. -/
def numChunks (N k : ℕ) : ℕ := (N + k - 1) / k

/-- Length of chunk `ci` (the slice `[ci*k : ci*k + k]` clamps at `N`). -/
def chunkLen (N k ci : ℕ) : ℕ := min k (N - ci * k)

/-- Locate position `n` of the query axis inside a list of chunks
(`jnp.concatenate(..., axis=1)` of lines 380-381): returns the chunk's
payload and the offset within it. -/
def chunkSel {β : Type} : List (ℕ × β) → ℕ → Option (β × ℕ)
  | [], _ => none
  | (len, x) :: rest, n => if n < len then some (x, n) else chunkSel rest (n - len)

/-- `position_in_grid` and the vmapped `interp` of lines 339-350: convert
each query `(t, y, x)` from (adjusted) video coordinates to feature-grid
coordinates and sample the grid there, per channel, by (tri)linear
interpolation. -/
def interpFOf (sqrtQ : ℚ → ℚ) (videoShape : List ℕ) (latent : FeatureGrid)
    (nf : Option ℕ) (fgo : Option FeatureGrid) (q : QueryPoints) :
    ℕ → ℕ → ℕ → ℚ :=
  fun b n c =>
    interp3 (usedFG sqrtQ latent fgo).T (usedFG sqrtQ latent fgo).H
      (usedFG sqrtQ latent fgo).W
      (fun t h w => (usedFG sqrtQ latent fgo).val b t h w c)
      (convertTYX ((adjShape videoShape nf).getD 1 0) ((adjShape videoShape nf).getD 2 0)
        ((adjShape videoShape nf).getD 3 0) (usedFG sqrtQ latent fgo).T
        (usedFG sqrtQ latent fgo).H (usedFG sqrtQ latent fgo).W (q.val b n))

/-- The feature-grid heads of line 352: `einshape('bthw(cd)->bthwcd', d=4)`
reads merged channel `c * 4 + d`. -/
def fghOf (sqrtQ : ℚ → ℚ) (latent : FeatureGrid) (fgo : Option FeatureGrid) :
    ℕ → ℕ → ℕ → ℕ → ℕ → ℕ → ℚ :=
  fun b t h w c d => (usedFG sqrtQ latent fgo).val b t h w (c * 4 + d)

/-- The chunk list built by the loop of lines 372-379: for chunk `ci`, the
slices `interp_features_heads[:, i:i+k]` and `query_points[:, i:i+k]`
(`i = ci * k`) are passed to `tracks_from_cost_volume`, and the chunk's
query-axis length is recorded for concatenation. -/
def chunkPayload (prm : CVParams) (expQ sqrtQ : ℚ → ℚ) (videoShape : List ℕ)
    (latent : FeatureGrid) (nf : Option ℕ) (fgo : Option FeatureGrid)
    (q : QueryPoints) (k ci : ℕ) :
    (ℕ → ℕ → ℕ → ℚ × ℚ) × (ℕ → ℕ → ℕ → ℚ) :=
  tracks_from_cost_volume prm expQ sqrtQ (usedFG sqrtQ latent fgo).B
    (chunkLen q.N k ci) (usedFG sqrtQ latent fgo).T (usedFG sqrtQ latent fgo).H
    (usedFG sqrtQ latent fgo).W ((usedFG sqrtQ latent fgo).C / 4)
    ((adjShape videoShape nf).getD 1 0) ((adjShape videoShape nf).getD 2 0)
    ((adjShape videoShape nf).getD 3 0)
    (fun b' n' c d => interpFOf sqrtQ videoShape latent nf fgo q b' (ci * k + n') (c * 4 + d))
    (fghOf sqrtQ latent fgo)
    (fun b' n' => q.val b' (ci * k + n'))

def chunksOf (prm : CVParams) (expQ sqrtQ : ℚ → ℚ) (videoShape : List ℕ)
    (latent : FeatureGrid) (nf : Option ℕ) (fgo : Option FeatureGrid)
    (q : QueryPoints) (k : ℕ) :
    List (ℕ × ((ℕ → ℕ → ℕ → ℚ × ℚ) × (ℕ → ℕ → ℕ → ℚ))) :=
  (List.range (numChunks q.N k)).map (fun ci =>
    (chunkLen q.N k ci, chunkPayload prm expQ sqrtQ videoShape latent nf fgo q k ci))

/-- `TAPNet.__call__` (lines 276-386), returning the executed-stage trace
and either a configuration error or the output dict.  `latent` stands for
the backbone output on this video; `sqrtQ`/`expQ` abstract
`jnp.sqrt`/`exp`.  Statements are executed in source order: backbone and
normalization (318-331), shape fixup (333-335), coordinate conversion
(339-344, which fails when `query_points` is `None`), feature sampling
(345-350), head splitting (351-357), dict assembly (358-360), then — only
when `compute_regression` — the chunk-size assertion (363) and the chunked
correlator loop with concatenation (372-384). -/
def forward (prm : CVParams) (expQ sqrtQ : ℚ → ℚ) (videoShape : List ℕ)
    (latent : FeatureGrid) (num_frames : Option ℕ)
    (query_points : Option QueryPoints) (compute_regression : Bool)
    (query_chunk_size : Option ℕ) (get_query_feats : Bool)
    (feature_grid : Option FeatureGrid) : List Step × Except FwdErr FwdOut :=
  match query_points with
  | none => (tr0Of feature_grid, Except.error FwdErr.missingQueryPoints)
  | some q =>
    match compute_regression with
    | false =>
        (tr0Of feature_grid ++ [Step.coordConvert, Step.sample],
         Except.ok
          { feature_grid := usedFG sqrtQ latent feature_grid
            query_feats :=
              if get_query_feats then
                some (interpFOf sqrtQ videoShape latent num_frames feature_grid q)
              else none
            occlusion := none
            tracks := none })
    | true =>
      match query_chunk_size with
      | none =>
          (tr0Of feature_grid ++ [Step.coordConvert, Step.sample],
           Except.error FwdErr.chunkUnset)
      | some k =>
        if k = 0 then
          (tr0Of feature_grid ++ [Step.coordConvert, Step.sample],
           Except.error FwdErr.chunkZero)
        else
          (tr0Of feature_grid ++ [Step.coordConvert, Step.sample] ++
            (List.range (numChunks q.N k)).map Step.correlator,
           Except.ok
            { feature_grid := usedFG sqrtQ latent feature_grid
              query_feats :=
                if get_query_feats then
                  some (interpFOf sqrtQ videoShape latent num_frames feature_grid q)
                else none
              occlusion := some (fun b n t =>
                match chunkSel
                    (chunksOf prm expQ sqrtQ videoShape latent num_frames feature_grid q k)
                    n with
                | some pr => pr.1.2 b pr.2 t
                | none => 0)
              tracks := some (fun b n t =>
                match chunkSel
                    (chunksOf prm expQ sqrtQ videoShape latent num_frames feature_grid q k)
                    n with
                | some pr => pr.1.1 b pr.2 t
                | none => (0, 0)) })


/-- The `'tracks'` entry of a forward-pass result, when present. -/
def resTracks (r : List Step × Except FwdErr FwdOut) :
    Option (ℕ → ℕ → ℕ → ℚ × ℚ) :=
  match r.2 with
  | Except.ok o => o.tracks
  | Except.error _ => none

/-- The `'occlusion'` entry of a forward-pass result, when present. -/
def resOcclusion (r : List Step × Except FwdErr FwdOut) :
    Option (ℕ → ℕ → ℕ → ℚ) :=
  match r.2 with
  | Except.ok o => o.occlusion
  | Except.error _ => none

/-- The `'feature_grid'` entry of a forward-pass result, when present. -/
def resFeatureGrid (r : List Step × Except FwdErr FwdOut) : Option FeatureGrid :=
  match r.2 with
  | Except.ok o => some o.feature_grid
  | Except.error _ => none

/-- The `'query_feats'` entry of a forward-pass result, when present. -/
def resQueryFeats (r : List Step × Except FwdErr FwdOut) :
    Option (ℕ → ℕ → ℕ → ℚ) :=
  match r.2 with
  | Except.ok o => o.query_feats
  | Except.error _ => none

/-- The normalization of lines 327-331 on one channel vector, over the
reals (where `jnp.sqrt` has its exact semantics `Real.sqrt`):
`v / sqrt(max(sum(square(v)), 1e-12))`. -/
noncomputable def normalizeCellR (C : ℕ) (v : ℕ → ℝ) : ℕ → ℝ :=
  fun c => v c / Real.sqrt (max (∑ c' ∈ Finset.range C, v c' ^ 2) 1e-12)

/-! ## Helper lemmas -/

theorem gridSum_mul_valid (H W : ℕ) (f sv : ℕ → ℕ → ℚ) (px py th : ℚ) :
    gridSum H W (fun r c => f r c * validCell px py th r c * sv r c) =
      ∑ rc ∈ (Finset.range H ×ˢ Finset.range W).filter
          (fun rc => ((rc.1 : ℚ) - py) ^ 2 + ((rc.2 : ℚ) - px) ^ 2 < th ^ 2),
        f rc.1 rc.2 * sv rc.1 rc.2 := by
  rw [Finset.sum_filter, Finset.sum_product]
  unfold gridSum validCell
  refine Finset.sum_congr rfl fun r _ => Finset.sum_congr rfl fun c _ => ?_
  dsimp only
  by_cases h : ((c : ℚ) - px) ^ 2 + ((r : ℚ) - py) ^ 2 < th ^ 2
  · rw [if_pos h, if_pos (by rw [add_comm]; exact h)]
    ring
  · rw [if_neg h, if_neg (by rw [add_comm]; exact h)]
    ring

theorem clampI_natCast (n k : ℕ) (hk : k < n) : clampI n (k : ℤ) = k := by
  unfold clampI
  omega

theorem axisVal_natCast (n : ℕ) (k : ℕ) (g : ℕ → ℚ) (hk : k < n) :
    axisVal n ((k : ℕ) : ℚ) g = g k := by
  unfold axisVal
  rw [Int.floor_natCast, clampI_natCast n k hk]
  push_cast
  ring

theorem clampI_of_neg (n : ℕ) (i : ℤ) (hi : i ≤ 0) : clampI n i = 0 := by
  unfold clampI
  omega

theorem clampI_of_ge (n : ℕ) (i : ℤ) (hn : 0 < n) (hi : (n : ℤ) - 1 ≤ i) :
    clampI n i = n - 1 := by
  unfold clampI
  omega

theorem clampI_zero_size (i : ℤ) : clampI 0 i = 0 := by
  unfold clampI
  omega

theorem axisVal_clamp (n : ℕ) (c : ℚ) (g : ℕ → ℚ) :
    axisVal n c g = axisVal n (clampQ n c) g := by
  rcases lt_or_le c 0 with hc | hc0
  · have hf : ⌊c⌋ < 0 := by
      rw [Int.floor_lt]
      push_cast
      exact hc
    have hq : clampQ n c = 0 := by
      unfold clampQ
      rw [max_eq_left (le_trans (min_le_left _ _) hc.le)]
    rw [hq]
    unfold axisVal
    rw [clampI_of_neg n ⌊c⌋ (by omega), clampI_of_neg n (⌊c⌋ + 1) (by omega),
      Int.floor_zero, clampI_of_neg n 0 le_rfl]
    push_cast
    ring
  · rcases le_or_lt c ((n : ℚ) - 1) with hc1 | hc2
    · have hq : clampQ n c = c := by
        unfold clampQ
        rw [min_eq_left hc1, max_eq_right hc0]
      rw [hq]
    · rcases Nat.eq_zero_or_pos n with hn | hn
      · subst hn
        have hq : clampQ 0 c = 0 := by
          unfold clampQ
          rw [max_eq_left]
          exact le_trans (min_le_right _ _) (by norm_num)
        rw [hq]
        unfold axisVal
        simp only [clampI_zero_size, Int.floor_zero]
        push_cast
        ring
      · have hfl : (n : ℤ) - 1 ≤ ⌊c⌋ := by
          rw [Int.le_floor]
          push_cast
          linarith
        have hq : clampQ n c = (n : ℚ) - 1 := by
          unfold clampQ
          rw [min_eq_right hc2.le, max_eq_right (by
            have : (1 : ℚ) ≤ (n : ℚ) := by exact_mod_cast hn
            linarith)]
        rw [hq]
        have hcast : ((n : ℚ) - 1) = (((n - 1 : ℕ) : ℕ) : ℚ) := by
          push_cast [hn]
          ring
        rw [hcast, axisVal_natCast n (n - 1) g (by omega)]
        unfold axisVal
        rw [clampI_of_ge n ⌊c⌋ hn hfl, clampI_of_ge n (⌊c⌋ + 1) hn (by omega)]
        ring

/-! ## Claim theorems -/

/-- C9: every epsilon-floored quantity of the pipeline is bounded below by
its epsilon, so the feature-grid normalization denominator, the
soft-argmax denominator and the occlusion RMS radicand are strictly
positive and the operations are total: no division by zero can occur. -/
theorem epsilon_floors :
    (∀ (C : ℕ) (v : ℕ → ℚ), (1e-12 : ℚ) ≤ normRadicand C v) ∧
    (∀ (H W : ℕ) (sv : ℕ → ℕ → ℚ) (th : ℚ), (1e-12 : ℚ) ≤ sumOfWeights H W sv th) ∧
    (∀ (H2 W2 : ℕ) (f : ℕ → ℕ → ℚ), (1e-8 : ℚ) ≤ occRadicand H2 W2 f) := by
  refine ⟨fun C v => le_max_right _ _, fun H W sv th => le_max_right _ _, fun H2 W2 f => ?_⟩
  unfold occRadicand
  have h : 0 ≤ (∑ h ∈ Finset.range H2, ∑ w ∈ Finset.range W2, f h w ^ 2) / ((H2 * W2 : ℕ) : ℚ) := by
    apply div_nonneg _ (by positivity)
    exact Finset.sum_nonneg fun h _ => Finset.sum_nonneg fun w _ => sq_nonneg _
  linarith

/-- C3: `soft_argmax_heatmap` computes exactly the spec's three steps:
argmax seed, valid cells = squared Euclidean distance to the seed below
the squared pixel radius, and the heatmap-weighted average coordinate over
the valid cells with the denominator floored at `1e-12`. -/
theorem soft_argmax_spec_eq (H W : ℕ) (sv : ℕ → ℕ → ℚ) (th : ℚ) :
    soft_argmax_heatmap H W sv th = softArgmaxSpec H W sv th := by
  unfold soft_argmax_heatmap softArgmaxSpec sumOfWeights
  rw [gridSum_mul_valid H W (fun _ c => (c : ℚ)) sv, gridSum_mul_valid H W (fun r _ => (r : ℚ)) sv]
  have hw : gridSum H W (fun r c =>
      validCell ((argmaxFlat H W sv % W : ℕ) : ℚ) ((argmaxFlat H W sv / W : ℕ) : ℚ) th r c * sv r c) =
      gridSum H W (fun r c =>
        (fun _ _ => (1 : ℚ)) r c *
          validCell ((argmaxFlat H W sv % W : ℕ) : ℚ) ((argmaxFlat H W sv / W : ℕ) : ℚ) th r c * sv r c) := by
    unfold gridSum
    refine Finset.sum_congr rfl fun r _ => Finset.sum_congr rfl fun c _ => by ring
  rw [hw, gridSum_mul_valid H W (fun _ _ => (1 : ℚ)) sv]
  simp only [one_mul]

/-- C5: the bilinear sampler `interp` returns the stored cell value
unchanged at exact integer in-bounds grid coordinates, and at any
coordinate it agrees with the value at the coordinate clamped into the
grid bounds (edge clamping instead of erroring out of bounds). -/
theorem interp_boundary :
    (∀ (H W : ℕ) (g : ℕ → ℕ → ℚ) (r c : ℕ), r < H → c < W →
      interp H W g ((r : ℕ) : ℚ) ((c : ℕ) : ℚ) = g r c) ∧
    (∀ (H W : ℕ) (g : ℕ → ℕ → ℚ) (y x : ℚ),
      interp H W g y x = interp H W g (clampQ H y) (clampQ W x)) := by
  constructor
  · intro H W g r c hr hc
    unfold interp
    rw [axisVal_natCast H r _ hr, axisVal_natCast W c _ hc]
  · intro H W g y x
    unfold interp
    have hx : (fun r => axisVal W x (g r)) = fun r => axisVal W (clampQ W x) (g r) :=
      funext fun r => axisVal_clamp W x (g r)
    rw [hx]
    exact axisVal_clamp H y _

/-- Witness for `interp_boundary` at a concrete grid and point. -/
theorem interp_boundary_witness :
    1 < 2 ∧ 1 < 2 ∧ interp 2 2 (fun _ _ => (5 : ℚ)) ((1 : ℕ) : ℚ) ((1 : ℕ) : ℚ) = 5 :=
  ⟨by decide, by decide, interp_boundary.1 2 2 (fun _ _ => (5 : ℚ)) 1 1 (by decide) (by decide)⟩

theorem foldl_max_small (F : ℕ → ℚ) :
    ∀ n, (List.range n).foldl (fun best k => if F best < F k then k else best) 0 < n ∨
      (List.range n).foldl (fun best k => if F best < F k then k else best) 0 = 0 := by
  intro n
  induction n with
  | zero => exact Or.inr rfl
  | succ m ih =>
    rw [List.range_succ, List.foldl_append, List.foldl_cons, List.foldl_nil]
    by_cases h : F ((List.range m).foldl (fun best k => if F best < F k then k else best) 0) < F m
    · rw [if_pos h]
      exact Or.inl (Nat.lt_succ_self m)
    · rw [if_neg h]
      rcases ih with h' | h'
      · exact Or.inl (h'.trans (Nat.lt_succ_self m))
      · exact Or.inr h'

theorem foldl_argmax_eq (F : ℕ → ℚ) (p : ℕ) :
    ∀ n, p < n → (∀ k, k < n → k ≠ p → F k < F p) →
      (List.range n).foldl (fun best k => if F best < F k then k else best) 0 = p := by
  intro n
  induction n with
  | zero => omega
  | succ m ih =>
    intro hp hmax
    rw [List.range_succ, List.foldl_append, List.foldl_cons, List.foldl_nil]
    rcases Nat.lt_succ_iff_lt_or_eq.mp hp with hpm | hpm
    · have hb : (List.range m).foldl (fun best k => if F best < F k then k else best) 0 = p :=
        ih hpm (fun k hk hkp => hmax k (hk.trans (Nat.lt_succ_self m)) hkp)
      rw [hb, if_neg (lt_asymm (hmax m (Nat.lt_succ_self m) (by omega)))]
    · rw [← hpm]
      rw [← hpm] at hmax
      rcases Nat.eq_zero_or_pos p with hp0 | hp0
      · rw [hp0]
        simp
      · have hbs := foldl_max_small F p
        have hbne : (List.range p).foldl (fun best k => if F best < F k then k else best) 0 ≠ p ∧
            (List.range p).foldl (fun best k => if F best < F k then k else best) 0 < p + 1 := by
          omega
        rw [if_pos (hmax _ hbne.2 hbne.1)]

theorem argmaxFlat_eq_of_unique (H W : ℕ) (sv : ℕ → ℕ → ℚ) (p : ℕ) (hp : p < H * W)
    (hmax : ∀ k, k < H * W → k ≠ p → sv (k / W) (k % W) < sv (p / W) (p % W)) :
    argmaxFlat H W sv = p := by
  unfold argmaxFlat
  exact foldl_argmax_eq (fun j => sv (j / W) (j % W)) p (H * W) hp hmax

theorem div_mod_of_flat (W r c : ℕ) (hc : c < W) :
    (r * W + c) / W = r ∧ (r * W + c) % W = c := by
  have hW : 0 < W := Nat.pos_of_ne_zero (by omega)
  rw [Nat.mul_comm r W]
  constructor
  · rw [Nat.mul_add_div hW, Nat.div_eq_of_lt hc, Nat.add_zero]
  · rw [Nat.mul_add_mod, Nat.mod_eq_of_lt hc]

theorem argmaxFlat_onehot (H W r c : ℕ) (hr : r < H) (hc : c < W) :
    argmaxFlat H W (fun r' c' => if r' = r ∧ c' = c then (1 : ℚ) else 0) = r * W + c := by
  have hW : 0 < W := Nat.pos_of_ne_zero (by omega)
  have hdm := div_mod_of_flat W r c hc
  apply argmaxFlat_eq_of_unique
  · calc r * W + c < r * W + W := by omega
      _ = (r + 1) * W := by rw [Nat.succ_mul]
      _ ≤ H * W := Nat.mul_le_mul_right W hr
  · intro k hk hkp
    rw [hdm.1, hdm.2]
    have hne : ¬(k / W = r ∧ k % W = c) := by
      rintro ⟨h1, h2⟩
      apply hkp
      have h3 := Nat.div_add_mod k W
      rw [h1, h2, Nat.mul_comm] at h3
      omega
    rw [if_neg hne, if_pos ⟨rfl, rfl⟩]
    norm_num

theorem gridSum_mul_onehot (H W : ℕ) (g : ℕ → ℕ → ℚ) (r c : ℕ) (hr : r < H) (hc : c < W) :
    gridSum H W (fun r' c' => g r' c' * (if r' = r ∧ c' = c then (1 : ℚ) else 0)) = g r c := by
  unfold gridSum
  have hrow : ∀ a ∈ Finset.range H, a ≠ r →
      ∑ c' ∈ Finset.range W, g a c' * (if a = r ∧ c' = c then (1 : ℚ) else 0) = 0 := by
    intro a _ ha
    apply Finset.sum_eq_zero
    intro b _
    rw [if_neg (fun hab => ha hab.1), mul_zero]
  rw [Finset.sum_eq_single_of_mem r (Finset.mem_range.mpr hr) hrow]
  have hcol : ∀ b ∈ Finset.range W, b ≠ c →
      g r b * (if r = r ∧ b = c then (1 : ℚ) else 0) = 0 := by
    intro b _ hb
    rw [if_neg (fun hab => hb hab.2), mul_zero]
  rw [Finset.sum_eq_single_of_mem c (Finset.mem_range.mpr hc) hcol]
  rw [if_pos ⟨rfl, rfl⟩, mul_one]

/-- C4: on a one-hot heatmap spiking at cell `(r, c)`, the soft argmax with
the default radius 5 returns exactly the grid coordinate `(c, r)` (i.e.
`(x, y)`). -/
theorem soft_argmax_onehot (H W r c : ℕ) (hr : r < H) (hc : c < W) :
    soft_argmax_heatmap H W (fun r' c' => if r' = r ∧ c' = c then (1 : ℚ) else 0) 5 =
      ((c : ℚ), (r : ℚ)) := by
  have hdm := div_mod_of_flat W r c hc
  unfold soft_argmax_heatmap sumOfWeights
  rw [argmaxFlat_onehot H W r c hr hc, hdm.1, hdm.2]
  have hvalid : validCell ((c : ℕ) : ℚ) ((r : ℕ) : ℚ) 5 r c = 1 := by
    unfold validCell
    rw [if_pos (by norm_num)]
  have h1 : gridSum H W (fun r' c' =>
      (c' : ℚ) * validCell ((c : ℕ) : ℚ) ((r : ℕ) : ℚ) 5 r' c' *
        (if r' = r ∧ c' = c then (1 : ℚ) else 0)) = (c : ℚ) := by
    rw [gridSum_mul_onehot H W (fun r' c' => (c' : ℚ) * validCell ((c : ℕ) : ℚ) ((r : ℕ) : ℚ) 5 r' c')
      r c hr hc, hvalid, mul_one]
  have h2 : gridSum H W (fun r' c' =>
      (r' : ℚ) * validCell ((c : ℕ) : ℚ) ((r : ℕ) : ℚ) 5 r' c' *
        (if r' = r ∧ c' = c then (1 : ℚ) else 0)) = (r : ℚ) := by
    rw [gridSum_mul_onehot H W (fun r' c' => (r' : ℚ) * validCell ((c : ℕ) : ℚ) ((r : ℕ) : ℚ) 5 r' c')
      r c hr hc, hvalid, mul_one]
  have h3 : gridSum H W (fun r' c' =>
      validCell ((c : ℕ) : ℚ) ((r : ℕ) : ℚ) 5 r' c' *
        (if r' = r ∧ c' = c then (1 : ℚ) else 0)) = 1 := by
    rw [gridSum_mul_onehot H W (fun r' c' => validCell ((c : ℕ) : ℚ) ((r : ℕ) : ℚ) 5 r' c')
      r c hr hc, hvalid]
  rw [h1, h2, h3]
  norm_num

/-- Witness for `soft_argmax_onehot` on a 3×3 grid with the spike at
`(1, 2)`. -/
theorem soft_argmax_onehot_witness :
    1 < 3 ∧ 2 < 3 ∧
      soft_argmax_heatmap 3 3 (fun r' c' => if r' = 1 ∧ c' = 2 then (1 : ℚ) else 0) 5 =
        (((2 : ℕ) : ℚ), ((1 : ℕ) : ℚ)) :=
  ⟨by decide, by decide, soft_argmax_onehot 3 3 1 2 (by decide) (by decide)⟩

theorem jround_natCast (f : ℕ) : jround ((f : ℕ) : ℚ) = (f : ℤ) := by
  unfold jround
  rw [Int.floor_natCast]
  rw [if_pos (by push_cast; norm_num)]

theorem convertCoord_self (T : ℕ) (hT : 0 < T) (v : ℚ) : convertCoord T T v = v := by
  unfold convertCoord
  rw [mul_div_assoc, div_self (by exact_mod_cast hT.ne'), mul_one]

theorem htpPoint_pin (T H W imH imW : ℕ) (heat : ℕ → ℕ → ℕ → ℚ) (th : ℚ)
    (qp : ℚ × ℚ × ℚ) (f : ℕ) (hT : 0 < T) (hqt : qp.1 = ((f : ℕ) : ℚ)) :
    htpPoint T H W T imH imW heat th (some qp) f = (qp.2.2, qp.2.1) := by
  unfold htpPoint
  dsimp only
  rw [convertCoord_self T hT, hqt, jround_natCast]
  rw [if_pos rfl]
  simp only [Prod.mk.injEq]
  constructor <;> ring

theorem mul_add_lt_iff (b B m r : ℕ) (hr : r < m) : b * m + r < B * m ↔ b < B := by
  constructor
  · intro h
    by_contra hB
    push_neg at hB
    exact absurd (lt_of_le_of_lt (le_trans (Nat.mul_le_mul_right m hB) (Nat.le_add_right _ r)) h)
      (lt_irrefl _)
  · intro hB
    calc b * m + r < b * m + m := by omega
      _ = (b + 1) * m := by rw [Nat.succ_mul]
      _ ≤ B * m := Nat.mul_le_mul_right m hB

theorem le_numChunks_mul (N k : ℕ) (hk : 0 < k) : N ≤ numChunks N k * k := by
  unfold numChunks
  have h1 := Nat.div_add_mod (N + k - 1) k
  have h2 : (N + k - 1) % k < k := Nat.mod_lt _ hk
  rw [Nat.mul_comm]
  omega

theorem chunkSel_range_map {β : Type} :
    ∀ (nc : ℕ) (N k n : ℕ) (g : ℕ → β), 0 < k → n < N → N ≤ nc * k →
      chunkSel ((List.range nc).map (fun ci => (chunkLen N k ci, g ci))) n =
        some (g (n / k), n % k) := by
  intro nc
  induction nc with
  | zero => intro N k n g hk hn hN; omega
  | succ m ih =>
    intro N k n g hk hn hN
    rw [List.range_succ_eq_map, List.map_cons, List.map_map]
    show (if n < chunkLen N k 0 then some ((g 0, n)) else
      chunkSel (List.map ((fun ci => (chunkLen N k ci, g ci)) ∘ Nat.succ) (List.range m))
        (n - chunkLen N k 0)) = some (g (n / k), n % k)
    have hc0 : chunkLen N k 0 = min k N := by
      unfold chunkLen
      rw [Nat.zero_mul, Nat.sub_zero]
    by_cases hcase : n < chunkLen N k 0
    · rw [if_pos hcase]
      rw [hc0] at hcase
      have hnk : n < k := lt_of_lt_of_le hcase (min_le_left _ _)
      rw [Nat.div_eq_of_lt hnk, Nat.mod_eq_of_lt hnk]
    · rw [if_neg hcase]
      rw [hc0] at hcase
      have hle : k ≤ n := by omega
      have hck : chunkLen N k 0 = k := by
        rw [hc0]
        exact min_eq_left (by omega)
      rw [hck]
      have hmap : (fun ci => (chunkLen N k ci, g ci)) ∘ Nat.succ =
          fun ci => (chunkLen (N - k) k ci, (fun j => g (j + 1)) ci) := by
        funext ci
        simp only [Function.comp_apply]
        congr 1
        · unfold chunkLen
          congr 1
          rw [Nat.succ_mul, Nat.sub_sub, Nat.add_comm]
      rw [hmap]
      have hNm : N - k ≤ m * k := by
        rw [Nat.succ_mul] at hN
        omega
      rw [ih (N - k) k (n - k) (fun j => g (j + 1)) hk (by omega) hNm]
      have hdiv : n / k = (n - k) / k + 1 := by
        conv_lhs => rw [← Nat.sub_add_cancel hle]
        rw [Nat.add_div_right _ hk]
      have hmod : n % k = (n - k) % k := by
        conv_lhs => rw [← Nat.sub_add_cancel hle]
        rw [Nat.add_mod_right]
      rw [hdiv, hmod]

theorem chunkSel_chunksOf (prm : CVParams) (expQ sqrtQ : ℚ → ℚ) (vs : List ℕ)
    (latent : FeatureGrid) (nf : Option ℕ) (fgo : Option FeatureGrid)
    (q : QueryPoints) (k n : ℕ) (hk : 0 < k) (hn : n < q.N) :
    chunkSel (chunksOf prm expQ sqrtQ vs latent nf fgo q k) n =
      some (chunkPayload prm expQ sqrtQ vs latent nf fgo q k (n / k), n % k) := by
  unfold chunksOf
  exact chunkSel_range_map (numChunks q.N k) q.N k n
    (chunkPayload prm expQ sqrtQ vs latent nf fgo q k) hk hn (le_numChunks_mul q.N k hk)

theorem padBegin_one (D : ℕ) : padBegin D 1 1 = 0 := by
  unfold padBegin outSame
  omega

theorem getPad3_congr (D D' H W : ℕ) (v v' : ℕ → ℕ → ℕ → ℕ → ℕ → ℚ) (t t' j j' : ℕ)
    (hD : j < D ↔ j' < D') (hv : ∀ h w c, v t j h w c = v' t' j' h w c)
    (hz wz : ℤ) (c : ℕ) :
    getPad3 D H W v t (j : ℤ) hz wz c = getPad3 D' H W v' t' (j' : ℤ) hz wz c := by
  unfold getPad3
  by_cases hc : 0 ≤ (j : ℤ) ∧ (j : ℤ) < (D : ℤ) ∧ 0 ≤ hz ∧ hz < (H : ℤ) ∧ 0 ≤ wz ∧ wz < (W : ℤ)
  · have hc' : 0 ≤ (j' : ℤ) ∧ (j' : ℤ) < (D' : ℤ) ∧ 0 ≤ hz ∧ hz < (H : ℤ) ∧ 0 ≤ wz ∧ wz < (W : ℤ) :=
      ⟨Int.natCast_nonneg j', by exact_mod_cast hD.mp (by exact_mod_cast hc.2.1), hc.2.2⟩
    rw [if_pos hc, if_pos hc']
    simp only [Int.toNat_natCast]
    exact hv _ _ _
  · have hc' : ¬(0 ≤ (j' : ℤ) ∧ (j' : ℤ) < (D' : ℤ) ∧ 0 ≤ hz ∧ hz < (H : ℤ) ∧ 0 ≤ wz ∧ wz < (W : ℤ)) :=
      fun h => hc ⟨Int.natCast_nonneg j, by exact_mod_cast hD.mpr (by exact_mod_cast h.2.1), h.2.2⟩
    rw [if_neg hc, if_neg hc']

theorem conv3d_one_congr (kh kw cin : ℕ) (K : ℕ → ℕ → ℕ → ℕ → ℕ → ℚ) (bz : ℕ → ℚ)
    (sh sw D D' H W : ℕ) (v v' : ℕ → ℕ → ℕ → ℕ → ℕ → ℚ) (t t' j j' : ℕ)
    (hD : j < D ↔ j' < D') (hv : ∀ h w c, v t j h w c = v' t' j' h w c) :
    ∀ h w o, conv3d 1 kh kw cin K bz 1 sh sw D H W v t j h w o =
      conv3d 1 kh kw cin K bz 1 sh sw D' H W v' t' j' h w o := by
  intro h w o
  unfold conv3d
  congr 1
  rw [Finset.sum_range_one, Finset.sum_range_one]
  refine Finset.sum_congr rfl fun dh _ => Finset.sum_congr rfl fun dw _ =>
    Finset.sum_congr rfl fun c _ => ?_
  congr 1
  rw [padBegin_one, padBegin_one]
  rw [show ((j : ℤ) * ((1 : ℕ) : ℤ) + ((0 : ℕ) : ℤ) - 0) = (j : ℤ) by push_cast; ring,
    show ((j' : ℤ) * ((1 : ℕ) : ℤ) + ((0 : ℕ) : ℤ) - 0) = (j' : ℤ) by push_cast; ring]
  exact getPad3_congr D D' H W v v' t t' j j' hD hv _ _ c

theorem cvOf_slice (Cc m N : ℕ) (interpH : ℕ → ℕ → ℕ → ℕ → ℚ)
    (fgh : ℕ → ℕ → ℕ → ℕ → ℕ → ℕ → ℚ) (s r b : ℕ) (hr : r < m) (hsr : s + r < N) :
    ∀ t h w d, cvOf Cc m (fun b' n' c d => interpH b' (s + n') c d) fgh t (b * m + r) h w d =
      cvOf Cc N interpH fgh t (b * N + (s + r)) h w d := by
  intro t h w d
  unfold cvOf
  rw [(div_mod_of_flat m b r hr).1, (div_mod_of_flat m b r hr).2,
    (div_mod_of_flat N b (s + r) hsr).1, (div_mod_of_flat N b (s + r) hsr).2]

theorem tfcv_slice (p : CVParams) (expQ sqrtQ : ℚ → ℚ) (B m N T H W Cc imT imH imW : ℕ)
    (interpH : ℕ → ℕ → ℕ → ℕ → ℚ) (fgh : ℕ → ℕ → ℕ → ℕ → ℕ → ℕ → ℚ)
    (query : ℕ → ℕ → ℚ × ℚ × ℚ) (s r b t : ℕ) (hr : r < m) (hsm : s + m ≤ N) :
    ((tracks_from_cost_volume p expQ sqrtQ B m T H W Cc imT imH imW
        (fun b' n' c d => interpH b' (s + n') c d) fgh (fun b' n' => query b' (s + n'))).1
          b r t =
      (tracks_from_cost_volume p expQ sqrtQ B N T H W Cc imT imH imW
        interpH fgh query).1 b (s + r) t) ∧
    ((tracks_from_cost_volume p expQ sqrtQ B m T H W Cc imT imH imW
        (fun b' n' c d => interpH b' (s + n') c d) fgh (fun b' n' => query b' (s + n'))).2
          b r t =
      (tracks_from_cost_volume p expQ sqrtQ B N T H W Cc imT imH imW
        interpH fgh query).2 b (s + r) t) := by
  have hsr : s + r < N := by omega
  have hD : b * m + r < B * m ↔ b * N + (s + r) < B * N :=
    (mul_add_lt_iff b B m r hr).trans (mul_add_lt_iff b B N (s + r) hsr).symm
  have hcv := cvOf_slice Cc m N interpH fgh s r b hr hsr
  have hocc1 : ∀ t' h w o,
      occ1Of p (B * m) H W (cvOf Cc m (fun b' n' c d => interpH b' (s + n') c d) fgh)
        t' (b * m + r) h w o =
      occ1Of p (B * N) H W (cvOf Cc N interpH fgh) t' (b * N + (s + r)) h w o := by
    intro t' h w o
    unfold occ1Of
    exact congrArg relu (conv3d_one_congr 3 3 4 p.K1 p.b1 1 1 (B * m) (B * N) H W _ _
      t' t' (b * m + r) (b * N + (s + r)) hD (fun h w c => hcv t' h w c) h w o)
  have hpos : ∀ t' h w o,
      posOf p (B * m) H W
        (occ1Of p (B * m) H W (cvOf Cc m (fun b' n' c d => interpH b' (s + n') c d) fgh))
        t' (b * m + r) h w o =
      posOf p (B * N) H W (occ1Of p (B * N) H W (cvOf Cc N interpH fgh))
        t' (b * N + (s + r)) h w o := by
    intro t' h w o
    unfold posOf
    exact conv3d_one_congr 3 3 16 p.K2 p.b2 1 1 (B * m) (B * N) H W _ _
      t' t' (b * m + r) (b * N + (s + r)) hD (fun h w c => hocc1 t' h w c) h w o
  have hocc3 : ∀ t' h w o,
      occ3Of p (B * m) H W
        (occ1Of p (B * m) H W (cvOf Cc m (fun b' n' c d => interpH b' (s + n') c d) fgh))
        t' (b * m + r) h w o =
      occ3Of p (B * N) H W (occ1Of p (B * N) H W (cvOf Cc N interpH fgh))
        t' (b * N + (s + r)) h w o := by
    intro t' h w o
    unfold occ3Of
    exact conv3d_one_congr 3 3 16 p.K3 p.b3 2 2 (B * m) (B * N) H W _ _
      t' t' (b * m + r) (b * N + (s + r)) hD (fun h w c => hocc1 t' h w c) h w o
  have hsoft : ∀ t' h w,
      softOf expQ H W
        (posOf p (B * m) H W
          (occ1Of p (B * m) H W (cvOf Cc m (fun b' n' c d => interpH b' (s + n') c d) fgh)))
        t' (b * m + r) h w =
      softOf expQ H W (posOf p (B * N) H W (occ1Of p (B * N) H W (cvOf Cc N interpH fgh)))
        t' (b * N + (s + r)) h w := by
    intro t' h w
    have hden : softmaxDen expQ H W (fun h' w' =>
        posOf p (B * m) H W
          (occ1Of p (B * m) H W (cvOf Cc m (fun b' n' c d => interpH b' (s + n') c d) fgh))
          t' (b * m + r) h' w' 0) =
        softmaxDen expQ H W (fun h' w' =>
          posOf p (B * N) H W (occ1Of p (B * N) H W (cvOf Cc N interpH fgh))
            t' (b * N + (s + r)) h' w' 0) := by
      unfold softmaxDen
      exact Finset.sum_congr rfl fun h' _ => Finset.sum_congr rfl fun w' _ => by
        dsimp only
        rw [hpos t' h' w' 0]
    unfold softOf
    rw [hpos t' h w 0, hden]
  constructor
  · unfold tracks_from_cost_volume heatmaps_to_points
    dsimp only
    have hheat : (fun t' h w =>
        softOf expQ H W
          (posOf p (B * m) H W
            (occ1Of p (B * m) H W (cvOf Cc m (fun b' n' c d => interpH b' (s + n') c d) fgh)))
          t' (b * m + r) h w) =
        (fun t' h w =>
          softOf expQ H W (posOf p (B * N) H W (occ1Of p (B * N) H W (cvOf Cc N interpH fgh)))
            t' (b * N + (s + r)) h w) :=
      funext fun t' => funext fun h => funext fun w => hsoft t' h w
    rw [hheat]
    simp only [Option.map_some']
  · have hrad : ∀ o, (fun h w =>
        occ3Of p (B * m) H W
          (occ1Of p (B * m) H W (cvOf Cc m (fun b' n' c d => interpH b' (s + n') c d) fgh))
          t (b * m + r) h w o) =
        (fun h w =>
          occ3Of p (B * N) H W (occ1Of p (B * N) H W (cvOf Cc N interpH fgh))
            t (b * N + (s + r)) h w o) :=
      fun o => funext fun h => funext fun w => hocc3 t h w o
    unfold tracks_from_cost_volume occOutOf
    dsimp only
    refine congrArg (HAdd.hAdd p.bOcc) (Finset.sum_congr rfl fun o _ => ?_)
    rw [hrad o]

theorem chunkPayload_eval (prm : CVParams) (expQ sqrtQ : ℚ → ℚ) (vs : List ℕ)
    (latent : FeatureGrid) (nf : Option ℕ) (fgo : Option FeatureGrid)
    (q : QueryPoints) (k n b t : ℕ) (hk : 0 < k) (hn : n < q.N) :
    ((chunkPayload prm expQ sqrtQ vs latent nf fgo q k (n / k)).1 b (n % k) t =
      (tracks_from_cost_volume prm expQ sqrtQ (usedFG sqrtQ latent fgo).B q.N
        (usedFG sqrtQ latent fgo).T (usedFG sqrtQ latent fgo).H (usedFG sqrtQ latent fgo).W
        ((usedFG sqrtQ latent fgo).C / 4) ((adjShape vs nf).getD 1 0)
        ((adjShape vs nf).getD 2 0) ((adjShape vs nf).getD 3 0)
        (fun b' n' c d => interpFOf sqrtQ vs latent nf fgo q b' n' (c * 4 + d))
        (fghOf sqrtQ latent fgo) q.val).1 b n t) ∧
    ((chunkPayload prm expQ sqrtQ vs latent nf fgo q k (n / k)).2 b (n % k) t =
      (tracks_from_cost_volume prm expQ sqrtQ (usedFG sqrtQ latent fgo).B q.N
        (usedFG sqrtQ latent fgo).T (usedFG sqrtQ latent fgo).H (usedFG sqrtQ latent fgo).W
        ((usedFG sqrtQ latent fgo).C / 4) ((adjShape vs nf).getD 1 0)
        ((adjShape vs nf).getD 2 0) ((adjShape vs nf).getD 3 0)
        (fun b' n' c d => interpFOf sqrtQ vs latent nf fgo q b' n' (c * 4 + d))
        (fghOf sqrtQ latent fgo) q.val).2 b n t) := by
  have hsplit : n / k * k + n % k = n := by
    rw [Nat.mul_comm]
    exact Nat.div_add_mod n k
  have hmodk : n % k < k := Nat.mod_lt _ hk
  have hr : n % k < chunkLen q.N k (n / k) := by
    unfold chunkLen
    omega
  have hsm : n / k * k + chunkLen q.N k (n / k) ≤ q.N := by
    unfold chunkLen
    omega
  unfold chunkPayload
  constructor
  · conv_rhs => rw [← hsplit]
    exact (tfcv_slice prm expQ sqrtQ (usedFG sqrtQ latent fgo).B
      (chunkLen q.N k (n / k)) q.N (usedFG sqrtQ latent fgo).T (usedFG sqrtQ latent fgo).H
      (usedFG sqrtQ latent fgo).W ((usedFG sqrtQ latent fgo).C / 4)
      ((adjShape vs nf).getD 1 0) ((adjShape vs nf).getD 2 0) ((adjShape vs nf).getD 3 0)
      (fun b' n' c d => interpFOf sqrtQ vs latent nf fgo q b' n' (c * 4 + d))
      (fghOf sqrtQ latent fgo) q.val (n / k * k) (n % k) b t hr hsm).1
  · conv_rhs => rw [← hsplit]
    exact (tfcv_slice prm expQ sqrtQ (usedFG sqrtQ latent fgo).B
      (chunkLen q.N k (n / k)) q.N (usedFG sqrtQ latent fgo).T (usedFG sqrtQ latent fgo).H
      (usedFG sqrtQ latent fgo).W ((usedFG sqrtQ latent fgo).C / 4)
      ((adjShape vs nf).getD 1 0) ((adjShape vs nf).getD 2 0) ((adjShape vs nf).getD 3 0)
      (fun b' n' c d => interpFOf sqrtQ vs latent nf fgo q b' n' (c * 4 + d))
      (fghOf sqrtQ latent fgo) q.val (n / k * k) (n % k) b t hr hsm).2

/-- C2: the chunked correlator loop is numerically transparent.  For any
chunk size `k > 0` and any query index `n` within range, the tracks and
occlusion logits produced by the forward pass with chunk size `k`
(chunks concatenated along the query axis in original order) are exactly
the ones produced with chunk size `N` — i.e. all queries in one unchunked
pass — at every batch/query/frame index. -/
theorem chunking_equiv (prm : CVParams) (expQ sqrtQ : ℚ → ℚ) (vs : List ℕ)
    (latent : FeatureGrid) (nf : Option ℕ) (q : QueryPoints) (k : ℕ)
    (gqf : Bool) (fgo : Option FeatureGrid) (b n t : ℕ) (hk : 0 < k) (hn : n < q.N) :
    ((resTracks (forward prm expQ sqrtQ vs latent nf (some q) true (some k) gqf fgo)).map
        (fun f => f b n t) =
      (resTracks (forward prm expQ sqrtQ vs latent nf (some q) true (some q.N) gqf fgo)).map
        (fun f => f b n t)) ∧
    ((resOcclusion (forward prm expQ sqrtQ vs latent nf (some q) true (some k) gqf fgo)).map
        (fun f => f b n t) =
      (resOcclusion (forward prm expQ sqrtQ vs latent nf (some q) true (some q.N) gqf fgo)).map
        (fun f => f b n t)) := by
  have hN : 0 < q.N := by omega
  simp only [forward, resTracks, resOcclusion]
  rw [if_neg (by omega : ¬k = 0), if_neg (by omega : ¬q.N = 0)]
  simp only [Option.map_some']
  constructor
  · refine congrArg some ?_
    rw [chunkSel_chunksOf prm expQ sqrtQ vs latent nf fgo q k n hk hn,
      chunkSel_chunksOf prm expQ sqrtQ vs latent nf fgo q q.N n hN hn]
    dsimp only
    rw [(chunkPayload_eval prm expQ sqrtQ vs latent nf fgo q k n b t hk hn).1,
      (chunkPayload_eval prm expQ sqrtQ vs latent nf fgo q q.N n b t hN hn).1]
  · refine congrArg some ?_
    rw [chunkSel_chunksOf prm expQ sqrtQ vs latent nf fgo q k n hk hn,
      chunkSel_chunksOf prm expQ sqrtQ vs latent nf fgo q q.N n hN hn]
    dsimp only
    rw [(chunkPayload_eval prm expQ sqrtQ vs latent nf fgo q k n b t hk hn).2,
      (chunkPayload_eval prm expQ sqrtQ vs latent nf fgo q q.N n b t hN hn).2]

/-- Witness for `chunking_equiv`: chunk size 1 versus one unchunked pass on
a two-query set, with zero weights and identity stand-ins for `exp`/`sqrt`. -/
theorem chunking_equiv_witness :
    0 < 1 ∧ 0 < (2 : ℕ) ∧
      ((resTracks (forward ⟨fun _ _ _ _ _ => 0, fun _ => 0, fun _ _ _ _ _ => 0, fun _ => 0,
          fun _ _ _ _ _ => 0, fun _ => 0, fun _ => 0, 0⟩ (fun x => x) (fun x => x)
          [1, 2, 8, 8, 3] ⟨1, 2, 1, 1, 4, fun _ _ _ _ _ => 0⟩ none
          (some ⟨2, fun _ _ => (0, 0, 0)⟩) true (some 1) false none)).map
            (fun f => f 0 1 0) =
        (resTracks (forward ⟨fun _ _ _ _ _ => 0, fun _ => 0, fun _ _ _ _ _ => 0, fun _ => 0,
          fun _ _ _ _ _ => 0, fun _ => 0, fun _ => 0, 0⟩ (fun x => x) (fun x => x)
          [1, 2, 8, 8, 3] ⟨1, 2, 1, 1, 4, fun _ _ _ _ _ => 0⟩ none
          (some ⟨2, fun _ _ => (0, 0, 0)⟩) true
          (some (QueryPoints.N ⟨2, fun _ _ => (0, 0, 0)⟩)) false none)).map
            (fun f => f 0 1 0)) :=
  ⟨by decide, by decide,
   (chunking_equiv ⟨fun _ _ _ _ _ => 0, fun _ => 0, fun _ _ _ _ _ => 0, fun _ => 0,
      fun _ _ _ _ _ => 0, fun _ => 0, fun _ => 0, 0⟩ (fun x => x) (fun x => x)
      [1, 2, 8, 8, 3] ⟨1, 2, 1, 1, 4, fun _ _ _ _ _ => 0⟩ none
      ⟨2, fun _ _ => (0, 0, 0)⟩ 1 false none 0 1 0 (by decide) (by decide)).1⟩

/-- C1: the query-pin invariant.  At the query's own declared frame `f`,
`heatmaps_to_points` returns the query's raw `(x, y)` exactly (exact
rational equality, hence inside any floating tolerance), for any heatmap
content — the mask blend `out * (1 - m) + query * m` with `m = 1` there;
and the forward pass inherits the invariant for its `'tracks'` output. -/
theorem query_pin :
    (∀ (T H W imH imW : ℕ) (heat : ℕ → ℕ → ℕ → ℕ → ℕ → ℚ) (th : ℚ)
        (query : ℕ → ℕ → ℚ × ℚ × ℚ) (b n f : ℕ), 0 < T → (query b n).1 = ((f : ℕ) : ℚ) →
      heatmaps_to_points T H W T imH imW heat th (some query) b n f =
        ((query b n).2.2, (query b n).2.1)) ∧
    (∀ (prm : CVParams) (expQ sqrtQ : ℚ → ℚ) (vs : List ℕ) (latent : FeatureGrid)
        (nf : Option ℕ) (q : QueryPoints) (k : ℕ) (gqf : Bool) (fgo : Option FeatureGrid)
        (b n f : ℕ),
      0 < k → n < q.N →
      (adjShape vs nf).getD 1 0 = (usedFG sqrtQ latent fgo).T →
      0 < (usedFG sqrtQ latent fgo).T →
      (q.val b n).1 = ((f : ℕ) : ℚ) →
      (resTracks (forward prm expQ sqrtQ vs latent nf (some q) true (some k) gqf fgo)).map
        (fun fn => fn b n f) = some ((q.val b n).2.2, (q.val b n).2.1)) := by
  constructor
  · intro T H W imH imW heat th query b n f hT hq
    unfold heatmaps_to_points
    simp only [Option.map_some']
    exact htpPoint_pin T H W imH imW _ th (query b n) f hT hq
  · intro prm expQ sqrtQ vs latent nf q k gqf fgo b n f hk hn hsh hT hq
    have hsplit : n / k * k + n % k = n := by
      rw [Nat.mul_comm]
      exact Nat.div_add_mod n k
    simp only [forward, resTracks]
    rw [if_neg (by omega : ¬k = 0)]
    simp only [Option.map_some']
    rw [chunkSel_chunksOf prm expQ sqrtQ vs latent nf fgo q k n hk hn]
    dsimp only
    unfold chunkPayload tracks_from_cost_volume heatmaps_to_points
    dsimp only
    simp only [Option.map_some']
    rw [hsh, hsplit]
    exact congrArg some (htpPoint_pin _ _ _ _ _ _ _ (q.val b n) f hT hq)

/-- Witness for `query_pin` on a concrete heatmap stack and query with
declared frame 1. -/
theorem query_pin_witness :
    0 < 2 ∧ ((fun _ _ => ((1 : ℚ), (2 : ℚ), (3 : ℚ))) 0 0).1 = ((1 : ℕ) : ℚ) ∧
      heatmaps_to_points 2 2 2 2 4 4 (fun _ _ _ _ _ => 0) 5
        (some (fun _ _ => ((1 : ℚ), (2 : ℚ), (3 : ℚ)))) 0 0 1 = ((3 : ℚ), (2 : ℚ)) :=
  ⟨by decide, by norm_num,
   query_pin.1 2 2 2 4 4 (fun _ _ _ _ _ => 0) 5 (fun _ _ => ((1 : ℚ), (2 : ℚ), (3 : ℚ)))
     0 0 1 (by decide) (by norm_num)⟩

/-- C6: feature-extraction-only mode.  With `compute_regression` disabled
the forward pass succeeds, the returned dict has no `'tracks'` or
`'occlusion'` entry, `'query_feats'` is present exactly when
`get_query_feats` is set, and the correlator is never invoked (no
correlator step in the execution trace). -/
theorem feature_only_mode (prm : CVParams) (expQ sqrtQ : ℚ → ℚ) (vs : List ℕ)
    (latent : FeatureGrid) (nf : Option ℕ) (q : QueryPoints) (cs : Option ℕ)
    (gqf : Bool) (fgo : Option FeatureGrid) :
    (∃ o, (forward prm expQ sqrtQ vs latent nf (some q) false cs gqf fgo).2 = Except.ok o ∧
      o.tracks = none ∧ o.occlusion = none ∧ o.query_feats.isSome = gqf) ∧
    (∀ i, Step.correlator i ∉ (forward prm expQ sqrtQ vs latent nf (some q) false cs gqf fgo).1) := by
  constructor
  · refine ⟨_, rfl, rfl, rfl, ?_⟩
    cases gqf <;> simp
  · intro i
    simp only [forward]
    cases fgo <;> simp [tr0Of]

/-- Counterexample to C7 as stated: with regression requested and the chunk
size unset, the forward pass does fail with the configuration
(assertion) error, but only after the backbone has already run — the
trace at the failure contains the backbone step, so the failure is not
"before any computation begins". -/
theorem chunk_assert_after_work :
    (forward ⟨fun _ _ _ _ _ => 0, fun _ => 0, fun _ _ _ _ _ => 0, fun _ => 0,
        fun _ _ _ _ _ => 0, fun _ => 0, fun _ => 0, 0⟩ (fun x => x) (fun x => x)
      [1, 4, 8, 8, 3] ⟨1, 4, 1, 1, 4, fun _ _ _ _ _ => 0⟩ none
      (some ⟨1, fun _ _ => (0, 0, 0)⟩) true none false none).2 =
        Except.error FwdErr.chunkUnset ∧
    Step.backbone ∈ (forward ⟨fun _ _ _ _ _ => 0, fun _ => 0, fun _ _ _ _ _ => 0, fun _ => 0,
        fun _ _ _ _ _ => 0, fun _ => 0, fun _ => 0, 0⟩ (fun x => x) (fun x => x)
      [1, 4, 8, 8, 3] ⟨1, 4, 1, 1, 4, fun _ _ _ _ _ => 0⟩ none
      (some ⟨1, fun _ _ => (0, 0, 0)⟩) true none false none).1 :=
  ⟨rfl, by decide⟩

/-- C7 (amended): with regression requested and `query_chunk_size` unset,
the forward pass fails fast with the configuration error before the
correlator branch performs any work (no correlator step in the trace) —
though after the backbone, coordinate conversion and feature sampling,
which the source runs unconditionally first. -/
theorem chunk_assert_before_correlator (prm : CVParams) (expQ sqrtQ : ℚ → ℚ)
    (vs : List ℕ) (latent : FeatureGrid) (nf : Option ℕ) (q : QueryPoints)
    (gqf : Bool) (fgo : Option FeatureGrid) :
    (forward prm expQ sqrtQ vs latent nf (some q) true none gqf fgo).2 =
      Except.error FwdErr.chunkUnset ∧
    ∀ i, Step.correlator i ∉ (forward prm expQ sqrtQ vs latent nf (some q) true none gqf fgo).1 := by
  constructor
  · rfl
  · intro i
    simp only [forward]
    cases fgo <;> simp [tr0Of]

/-- Counterexample to C8 as stated: a feature grid supplied externally is
used verbatim by the forward pass — it is not re-normalized — so a cell
with squared channel norm 16 (constant value 2 over 4 channels) flows
through with norm ≠ 1. -/
theorem external_grid_passthrough :
    resFeatureGrid (forward ⟨fun _ _ _ _ _ => 0, fun _ => 0, fun _ _ _ _ _ => 0, fun _ => 0,
        fun _ _ _ _ _ => 0, fun _ => 0, fun _ => 0, 0⟩ (fun x => x) (fun x => x)
      [1, 1, 8, 8, 3] ⟨1, 1, 1, 1, 4, fun _ _ _ _ _ => 0⟩ none
      (some ⟨1, fun _ _ => (0, 0, 0)⟩) false none false
      (some ⟨1, 1, 1, 1, 4, fun _ _ _ _ _ => 2⟩)) =
        some ⟨1, 1, 1, 1, 4, fun _ _ _ _ _ => 2⟩ ∧
    (∑ c ∈ Finset.range 4,
      ((⟨1, 1, 1, 1, 4, fun _ _ _ _ _ => 2⟩ : FeatureGrid).val 0 0 0 0 c) ^ 2) = 16 ∧
    (16 : ℚ) ≠ 1 :=
  ⟨rfl, by norm_num [Finset.sum_range_succ], by norm_num⟩

/-- C8 (amended): the feature grid computed internally by the forward pass
is L2-normalized — over the reals, every channel vector whose squared norm
is at least the `1e-12` floor has unit norm after the normalization of
lines 327-331 — while an externally supplied feature grid is used
verbatim (normalization is the caller's responsibility). -/
theorem feature_grid_normalization :
    (∀ (C : ℕ) (v : ℕ → ℝ), (1e-12 : ℝ) ≤ ∑ c ∈ Finset.range C, v c ^ 2 →
      ∑ c ∈ Finset.range C, normalizeCellR C v c ^ 2 = 1) ∧
    (∀ (prm : CVParams) (expQ sqrtQ : ℚ → ℚ) (vs : List ℕ) (latent : FeatureGrid)
        (nf : Option ℕ) (q : QueryPoints) (cs : Option ℕ) (gqf : Bool) (g : FeatureGrid),
      resFeatureGrid (forward prm expQ sqrtQ vs latent nf (some q) false cs gqf (some g)) =
        some g) := by
  constructor
  · intro C v h
    have hmax : max (∑ c' ∈ Finset.range C, v c' ^ 2) 1e-12 = ∑ c' ∈ Finset.range C, v c' ^ 2 :=
      max_eq_left h
    have hpos : (0 : ℝ) < ∑ c' ∈ Finset.range C, v c' ^ 2 :=
      lt_of_lt_of_le (by norm_num) h
    unfold normalizeCellR
    rw [hmax]
    have hsq : Real.sqrt (∑ c' ∈ Finset.range C, v c' ^ 2) ^ 2 =
        ∑ c' ∈ Finset.range C, v c' ^ 2 := Real.sq_sqrt hpos.le
    calc ∑ c ∈ Finset.range C, (v c / Real.sqrt (∑ c' ∈ Finset.range C, v c' ^ 2)) ^ 2
        = (∑ c ∈ Finset.range C, v c ^ 2) / Real.sqrt (∑ c' ∈ Finset.range C, v c' ^ 2) ^ 2 := by
          rw [Finset.sum_congr rfl fun c _ => div_pow (v c)
            (Real.sqrt (∑ c' ∈ Finset.range C, v c' ^ 2)) 2, ← Finset.sum_div]
      _ = 1 := by
          rw [hsq]
          exact div_self hpos.ne'
  · intro prm expQ sqrtQ vs latent nf q cs gqf g
    rfl

/-- Witness for `feature_grid_normalization` on a one-channel unit vector. -/
theorem feature_grid_normalization_witness :
    ((1e-12 : ℝ) ≤ ∑ c ∈ Finset.range 1, (fun _ => (1 : ℝ)) c ^ 2) ∧
      ∑ c ∈ Finset.range 1, normalizeCellR 1 (fun _ => (1 : ℝ)) c ^ 2 = 1 :=
  ⟨by norm_num,
   feature_grid_normalization.1 1 (fun _ => (1 : ℝ)) (by norm_num)⟩

/-- C9 restatement helper is above; C10: the forward pass uses
`query_points` unconditionally (coordinate conversion and sampling happen
before the `compute_regression` check), so a call with `query_points=None`
fails even in feature-extraction-only mode, while any call with query
points runs the conversion and sampling stages. -/
theorem query_points_required :
    (∀ (prm : CVParams) (expQ sqrtQ : ℚ → ℚ) (vs : List ℕ) (latent : FeatureGrid)
        (nf : Option ℕ) (cr : Bool) (cs : Option ℕ) (gqf : Bool) (fgo : Option FeatureGrid),
      (forward prm expQ sqrtQ vs latent nf none cr cs gqf fgo).2 =
        Except.error FwdErr.missingQueryPoints) ∧
    (∀ (prm : CVParams) (expQ sqrtQ : ℚ → ℚ) (vs : List ℕ) (latent : FeatureGrid)
        (nf : Option ℕ) (q : QueryPoints) (cr : Bool) (cs : Option ℕ) (gqf : Bool)
        (fgo : Option FeatureGrid),
      Step.coordConvert ∈ (forward prm expQ sqrtQ vs latent nf (some q) cr cs gqf fgo).1 ∧
      Step.sample ∈ (forward prm expQ sqrtQ vs latent nf (some q) cr cs gqf fgo).1) := by
  constructor
  · intro prm expQ sqrtQ vs latent nf cr cs gqf fgo
    rfl
  · intro prm expQ sqrtQ vs latent nf q cr cs gqf fgo
    constructor
    · cases cr
      · cases fgo <;> simp [forward, tr0Of]
      · cases cs
        · cases fgo <;> simp [forward, tr0Of]
        · cases fgo <;> (simp only [forward]; split <;> simp [tr0Of])
    · cases cr
      · cases fgo <;> simp [forward, tr0Of]
      · cases cs
        · cases fgo <;> simp [forward, tr0Of]
        · cases fgo <;> (simp only [forward]; split <;> simp [tr0Of])

end TapNet
